import Mathlib

/-!
Verification of the linear data structures in `queues_stacks_arrays.py`:
the dynamic array with doubling growth (`DynamicArray`), the link-based
stack (`LinkedStack`) and queue (`LinkedQueue`) built on
`AbstractCollection`, and their shared equality contract.

Machine model conventions:
* Item values are modelled as `Int` (the structures are value-generic in
  Python; one infinite value type suffices for all the claims).
* Python exceptions become explicit error values (`PyErr`).  `KeyError`
  raised by `pop`/`peek` on an empty stack or queue is the spec's
  `EmptyCollection`; `ValueError` from `DynamicArray.remove` is the
  spec's `NotFound`; `IndexError` from `DynamicArray.__getitem__` is the
  spec's `OutOfRange`; `AttributeError` covers both the explicit raise in
  `LinkedQueue.remove` and a dereference of a `None` node reference.
* A mutating method on an object becomes a function from the state to a
  pair of the method's result (or error) and the post state; when the
  method raises before mutating anything, the input state is returned.
* `LinkedStack`'s node chain is exclusively owned from `_top` downward,
  so it is embedded as the list of node data from top to bottom.
  `LinkedQueue` keeps two references (`_front`, `_rear`) into one chain
  and `remove` splices interior nodes, so the queue is embedded with an
  explicit heap of nodes addressed by allocation order.
-/

namespace QSA

/-- Python exception kinds raised by the source. -/
inductive PyErr where
  | emptyCollection
  | outOfRange
  | notFound
  | attributeError
deriving DecidableEq

/-! ### Generic list-slot lemmas

The backing stores (ctypes arrays, node heaps) are embedded as Lean
lists read with `List.getD`; these small lemmas describe how `List.set`
and `List.append` act on `getD`. -/

theorem getD_set_eq {α : Type} : ∀ (l : List α) (i : Nat) (x d : α),
    i < l.length → (l.set i x).getD i d = x := by
  intro l
  induction l with
  | nil => intro i x d h; simp at h
  | cons a t ih =>
    intro i x d h
    cases i with
    | zero => rfl
    | succ j =>
      simp only [List.set, List.getD, List.get?]
      exact ih j x d (by simpa using h)

theorem getD_set_ne {α : Type} : ∀ (l : List α) (i j : Nat) (x d : α),
    i ≠ j → (l.set i x).getD j d = l.getD j d := by
  intro l
  induction l with
  | nil => intro i j x d _; rfl
  | cons a t ih =>
    intro i j x d hne
    cases i with
    | zero =>
      cases j with
      | zero => exact absurd rfl hne
      | succ j2 => rfl
    | succ i2 =>
      cases j with
      | zero => rfl
      | succ j2 =>
        simp only [List.set, List.getD, List.get?]
        exact ih i2 j2 x d (fun h => hne (by rw [h]))

theorem getD_append_lt {α : Type} : ∀ (l l2 : List α) (i : Nat) (d : α),
    i < l.length → (l ++ l2).getD i d = l.getD i d := by
  intro l
  induction l with
  | nil => intro l2 i d h; simp at h
  | cons a t ih =>
    intro l2 i d h
    cases i with
    | zero => rfl
    | succ j => exact ih l2 j d (by simpa using h)

theorem getD_append_len {α : Type} : ∀ (l : List α) (x d : α),
    (l ++ [x]).getD l.length d = x := by
  intro l
  induction l with
  | nil => intro x d; rfl
  | cons a t ih => intro x d; exact ih x d

theorem getD_ge_len {α : Type} : ∀ (l : List α) (i : Nat) (d : α),
    l.length ≤ i → l.getD i d = d := by
  intro l
  induction l with
  | nil => intro i d _; cases i <;> rfl
  | cons a t ih =>
    intro i d h
    cases i with
    | zero => simp at h
    | succ j => exact ih j d (by simpa using h)

theorem getD_replicate_none {α : Type} : ∀ (c i : Nat),
    (List.replicate c (none : Option α)).getD i none = none := by
  intro c
  induction c with
  | zero => intro i; cases i <;> rfl
  | succ c2 ih => intro i; cases i with
    | zero => rfl
    | succ j => exact ih j

/-! ### LinkedStack

`class LinkedStack(AbstractStack)`: `_items` is the top node of a singly
linked chain exclusively owned by the stack, `_size` a counter.  The
chain is embedded as the list of node data from top to bottom. -/

structure LinkedStack where
  items : List Int
  size : Nat
deriving DecidableEq

namespace LinkedStack

/-- Fresh stack: `_items = None`, `_size = 0`. -/
def empty : LinkedStack := ⟨[], 0⟩

/-- `push(item)`: `self._items = Node(item, self._items); self._size += 1`. -/
def push (s : LinkedStack) (item : Int) : LinkedStack :=
  ⟨item :: s.items, s.size + 1⟩

/-- `pop()`: raises `KeyError` (EmptyCollection) when `isEmpty()`
(`len(self) == 0`), before any mutation; otherwise detaches the top node
and returns its data.  Dereferencing `_items` when it is `None` despite
a nonzero size would raise `AttributeError` (unreachable from the API). -/
def pop (s : LinkedStack) : (Except PyErr Int) × LinkedStack :=
  if s.size = 0 then (Except.error PyErr.emptyCollection, s)
  else
    match s.items with
    | [] => (Except.error PyErr.attributeError, s)
    | d :: rest => (Except.ok d, ⟨rest, s.size - 1⟩)

/-- `peek()`: same empty check as `pop`, no mutation (the method only
reads `self._items.data`, so it has no state output in the model). -/
def peek (s : LinkedStack) : Except PyErr Int :=
  if s.size = 0 then Except.error PyErr.emptyCollection
  else
    match s.items with
    | [] => Except.error PyErr.attributeError
    | d :: _ => Except.ok d

/-- `clear()`: `self._size = 0; self._items = None`. -/
def clear (_ : LinkedStack) : LinkedStack := ⟨[], 0⟩

/-- `__iter__`: visits items from bottom to top (recursive `visitNodes`
appends tail-first), i.e. the reverse of the top-to-bottom chain. -/
def iterList (s : LinkedStack) : List Int := s.items.reverse

/-- Pop `n` times, collecting the returned items; an error stops the run. -/
def popN : LinkedStack → Nat → List Int
  | _, 0 => []
  | s, n + 1 =>
    match s.pop with
    | (Except.ok v, s2) => v :: s2.popN n
    | (Except.error _, _) => []

/-- `LinkedStack(sourceCollection)` where the source is another stack:
`_items = None`, then `AbstractCollection.__init__` runs
`if sourceCollection: for item in sourceCollection: self.add(item)`.
Truthiness of a collection is `len(self) != 0`, iteration is bottom to
top, and `add` routes to `push`. -/
def copy (s : LinkedStack) : LinkedStack :=
  if s.size = 0 then empty
  else s.iterList.foldl push empty

/-- Well-formedness of a stack state: the `_size` counter mirrors the
chain length.  Holds in every state reachable through the API. -/
def WF (s : LinkedStack) : Prop := s.size = s.items.length

end LinkedStack

/-- Build a stack by pushing the values of `ps` in order onto a fresh
stack (each `add`/`push` call in sequence). -/
def buildStack (ps : List Int) : LinkedStack :=
  ps.foldl LinkedStack.push LinkedStack.empty

theorem foldl_push_spec : ∀ (ps : List Int) (s : LinkedStack),
    (ps.foldl LinkedStack.push s).items = ps.reverse ++ s.items ∧
    (ps.foldl LinkedStack.push s).size = s.size + ps.length := by
  intro ps
  induction ps with
  | nil => intro s; simp
  | cons p rest ih =>
    intro s
    have h := ih (s.push p)
    constructor
    · rw [List.foldl_cons, h.1]
      simp [LinkedStack.push]
    · rw [List.foldl_cons, h.2]
      simp [LinkedStack.push]
      omega

theorem buildStack_items (ps : List Int) :
    (buildStack ps).items = ps.reverse ∧ (buildStack ps).size = ps.length := by
  have h := foldl_push_spec ps LinkedStack.empty
  simpa [LinkedStack.empty] using h

theorem popN_drain : ∀ (l : List Int), LinkedStack.popN ⟨l, l.length⟩ l.length = l := by
  intro l
  induction l with
  | nil => rfl
  | cons d rest ih =>
    show LinkedStack.popN ⟨d :: rest, rest.length + 1⟩ (rest.length + 1) = d :: rest
    simp only [LinkedStack.popN, LinkedStack.pop]
    norm_num
    exact ih

/-- Claim C3 — LIFO: pushing `p1..pn` onto a fresh stack and popping `n`
times yields `pn, ..., p1`, the reverse of the push order. -/
theorem lifo_stack (ps : List Int) :
    (buildStack ps).popN ps.length = ps.reverse := by
  have h := buildStack_items ps
  have hb : buildStack ps = ⟨ps.reverse, ps.reverse.length⟩ := by
    cases hq : buildStack ps with
    | mk i s =>
      rw [hq] at h
      simp only at h
      rw [h.1, h.2]
      simp
  rw [hb]
  have hlen : ps.length = ps.reverse.length := (List.length_reverse ps).symm
  rw [hlen]
  exact popN_drain ps.reverse

/-! ### DynamicArray

`class DynamicArray`: logical count `_n`, `_capacity`, and a ctypes
backing array `_A` of `_capacity` slots.  A slot is `Option Int`:
`none` stands both for an uninitialized ctypes `py_object` slot and for
the Python value `None` that `remove` writes into the vacated slot; the
public API never reads such a slot as an element (all valid elements
live at `[0, n)` and are `some`-values in reachable states). -/

structure DynamicArray where
  n : Nat
  capacity : Nat
  A : List (Option Int)
deriving DecidableEq

/-- `_make_array(c)`: fresh storage of `c` uninitialized slots. -/
def makeArray (c : Nat) : List (Option Int) := List.replicate c none

namespace DynamicArray

/-- `__init__`: `_n = 0`, `_capacity = 1`, fresh one-slot array. -/
def empty : DynamicArray := ⟨0, 1, makeArray 1⟩

/-- The copy loop of `_resize`: `for k in range(n): B[k] = A[k]`. -/
def copyLoop (src dst : List (Option Int)) : Nat → List (Option Int)
  | 0 => dst
  | k + 1 => (copyLoop src dst k).set k (src.getD k none)

/-- `_resize(c)`: allocate capacity `c`, copy the first `_n` slots. -/
def resize (d : DynamicArray) (c : Nat) : DynamicArray :=
  ⟨d.n, c, copyLoop d.A (makeArray c) d.n⟩

/-- The common prologue of `append` and `insert`:
`if self._n == self._capacity: self._resize(2 * self._capacity)`. -/
def grow (d : DynamicArray) : DynamicArray :=
  if d.n = d.capacity then d.resize (2 * d.capacity) else d

/-- `append(obj)`: double capacity when full, store at index `_n`,
increment `_n`. -/
def append (d : DynamicArray) (v : Int) : DynamicArray :=
  let d1 := d.grow
  ⟨d1.n + 1, d1.capacity, d1.A.set d1.n (some v)⟩

/-- The shift loop of `insert`: `for j in range(n, k, -1): A[j] = A[j-1]`,
descending so each write reads a not-yet-overwritten slot.  The third
argument is the iteration count `n - k`; the iteration with count
`m + 1` writes index `k + m + 1` from index `k + m`. -/
def shiftUp : List (Option Int) → Nat → Nat → List (Option Int)
  | A, _, 0 => A
  | A, k, m + 1 => shiftUp (A.set (k + m + 1) (A.getD (k + m) none)) k m

/-- `insert(k, value)`: double capacity when full, shift `[k, n)` one
slot rightward, store at `k`, increment `_n`.  The source assumes
`0 <= k <= n` without checking (documented limitation). -/
def insert (d : DynamicArray) (k : Nat) (v : Int) : DynamicArray :=
  let d1 := d.grow
  ⟨d1.n + 1, d1.capacity, (shiftUp d1.A k (d1.n - k)).set k (some v)⟩

/-- The gap-closing loop of `remove`: `for j in range(k, n-1): A[j] = A[j+1]`,
ascending from `k`; the third argument is the remaining iteration
count `(n - 1) - k`. -/
def shiftDown : List (Option Int) → Nat → Nat → List (Option Int)
  | A, _, 0 => A
  | A, k, m + 1 => shiftDown (A.set k (A.getD (k + 1) none)) (k + 1) m

/-- The body of `remove` once a match is found at index `k`: close the
gap, write `None` into the vacated slot `n - 1`, decrement `_n`. -/
def removeAt (d : DynamicArray) (k : Nat) : DynamicArray :=
  ⟨d.n - 1, d.capacity, (shiftDown d.A k (d.n - 1 - k)).set (d.n - 1) none⟩

/-- The scan loop of `remove(value)` starting at index `k`: the first
slot in `[k, n)` equal to `value` is removed, else `ValueError`
(NotFound) is raised with the array untouched. -/
def removeLoop (d : DynamicArray) (v : Int) (k : Nat) :
    (Except PyErr Unit) × DynamicArray :=
  if h : k < d.n then
    if d.A.getD k none = some v then (Except.ok (), d.removeAt k)
    else d.removeLoop v (k + 1)
  else (Except.error PyErr.notFound, d)
termination_by d.n - k
decreasing_by simp_wf; omega

/-- `remove(value)`: scan from index 0. -/
def remove (d : DynamicArray) (v : Int) : (Except PyErr Unit) × DynamicArray :=
  d.removeLoop v 0

/-- `__getitem__(k)`: `IndexError` (OutOfRange) unless `0 <= k < n`. -/
def getItem (d : DynamicArray) (k : Nat) : Except PyErr (Option Int) :=
  if k < d.n then Except.ok (d.A.getD k none) else Except.error PyErr.outOfRange

end DynamicArray

/-- State invariant of a `DynamicArray`: positive capacity, `n ≤ capacity`,
and the backing store really has `capacity` slots. -/
def DInv (d : DynamicArray) : Prop :=
  0 < d.capacity ∧ d.n ≤ d.capacity ∧ d.A.length = d.capacity

/-! ### Loop lemmas for the DynamicArray -/

theorem copyLoop_length : ∀ (nn : Nat) (src dst : List (Option Int)),
    (DynamicArray.copyLoop src dst nn).length = dst.length := by
  intro nn
  induction nn with
  | zero => intro src dst; rfl
  | succ k ih =>
    intro src dst
    simp only [DynamicArray.copyLoop, List.length_set]
    exact ih src dst

theorem copyLoop_getD_lt : ∀ (nn : Nat) (src dst : List (Option Int)) (j : Nat),
    j < nn → j < dst.length →
    (DynamicArray.copyLoop src dst nn).getD j none = src.getD j none := by
  intro nn
  induction nn with
  | zero => intro src dst j h _; omega
  | succ k ih =>
    intro src dst j h hlen
    simp only [DynamicArray.copyLoop]
    rcases Nat.lt_or_ge j k with hj | hj
    · rw [getD_set_ne _ _ _ _ _ (by omega)]
      exact ih src dst j hj hlen
    · have hjk : j = k := by omega
      subst hjk
      rw [getD_set_eq]
      rw [copyLoop_length]
      exact hlen

theorem copyLoop_getD_ge : ∀ (nn : Nat) (src dst : List (Option Int)) (j : Nat),
    nn ≤ j → (DynamicArray.copyLoop src dst nn).getD j none = dst.getD j none := by
  intro nn
  induction nn with
  | zero => intro src dst j _; rfl
  | succ k ih =>
    intro src dst j h
    simp only [DynamicArray.copyLoop]
    rw [getD_set_ne _ _ _ _ _ (by omega)]
    exact ih src dst j (by omega)

theorem shiftUp_length : ∀ (m : Nat) (A : List (Option Int)) (k : Nat),
    (DynamicArray.shiftUp A k m).length = A.length := by
  intro m
  induction m with
  | zero => intro A k; rfl
  | succ m2 ih =>
    intro A k
    simp only [DynamicArray.shiftUp]
    rw [ih, List.length_set]

theorem shiftUp_getD_le : ∀ (m : Nat) (A : List (Option Int)) (k j : Nat),
    j ≤ k → (DynamicArray.shiftUp A k m).getD j none = A.getD j none := by
  intro m
  induction m with
  | zero => intro A k j _; rfl
  | succ m2 ih =>
    intro A k j h
    simp only [DynamicArray.shiftUp]
    rw [ih _ _ _ h, getD_set_ne _ _ _ _ _ (by omega)]

theorem shiftUp_getD_hi : ∀ (m : Nat) (A : List (Option Int)) (k j : Nat),
    k + m < j → (DynamicArray.shiftUp A k m).getD j none = A.getD j none := by
  intro m
  induction m with
  | zero => intro A k j _; rfl
  | succ m2 ih =>
    intro A k j h
    simp only [DynamicArray.shiftUp]
    rw [ih _ _ _ (by omega), getD_set_ne _ _ _ _ _ (by omega)]

theorem shiftUp_getD_mid : ∀ (m : Nat) (A : List (Option Int)) (k j : Nat),
    k < j → j ≤ k + m → k + m < A.length →
    (DynamicArray.shiftUp A k m).getD j none = A.getD (j - 1) none := by
  intro m
  induction m with
  | zero => intro A k j h1 h2 _; omega
  | succ m2 ih =>
    intro A k j h1 h2 hlen
    simp only [DynamicArray.shiftUp]
    rcases Nat.lt_or_ge j (k + m2 + 1) with hj | hj
    · rw [ih _ _ _ h1 (by omega) (by rw [List.length_set]; omega)]
      rw [getD_set_ne _ _ _ _ _ (by omega)]
    · have hje : j = k + m2 + 1 := by omega
      subst hje
      rw [shiftUp_getD_hi _ _ _ _ (by omega)]
      rw [getD_set_eq _ _ _ _ (by omega)]
      congr 1

theorem shiftDown_length : ∀ (m : Nat) (A : List (Option Int)) (k : Nat),
    (DynamicArray.shiftDown A k m).length = A.length := by
  intro m
  induction m with
  | zero => intro A k; rfl
  | succ m2 ih =>
    intro A k
    simp only [DynamicArray.shiftDown]
    rw [ih, List.length_set]

theorem shiftDown_getD_lt : ∀ (m : Nat) (A : List (Option Int)) (k j : Nat),
    j < k → (DynamicArray.shiftDown A k m).getD j none = A.getD j none := by
  intro m
  induction m with
  | zero => intro A k j _; rfl
  | succ m2 ih =>
    intro A k j h
    simp only [DynamicArray.shiftDown]
    rw [ih _ _ _ (by omega), getD_set_ne _ _ _ _ _ (by omega)]

theorem shiftDown_getD_ge : ∀ (m : Nat) (A : List (Option Int)) (k j : Nat),
    k + m ≤ j → (DynamicArray.shiftDown A k m).getD j none = A.getD j none := by
  intro m
  induction m with
  | zero => intro A k j _; rfl
  | succ m2 ih =>
    intro A k j h
    simp only [DynamicArray.shiftDown]
    rw [ih _ _ _ (by omega), getD_set_ne _ _ _ _ _ (by omega)]

theorem shiftDown_getD_mid : ∀ (m : Nat) (A : List (Option Int)) (k j : Nat),
    k ≤ j → j < k + m → k + m ≤ A.length →
    (DynamicArray.shiftDown A k m).getD j none = A.getD (j + 1) none := by
  intro m
  induction m with
  | zero => intro A k j h1 h2 _; omega
  | succ m2 ih =>
    intro A k j h1 h2 hlen
    simp only [DynamicArray.shiftDown]
    rcases Nat.lt_or_ge j (k + 1) with hj | hj
    · have hje : j = k := by omega
      subst hje
      rw [shiftDown_getD_lt _ _ _ _ (by omega)]
      rw [getD_set_eq _ _ _ _ (by omega)]
    · rw [ih _ _ _ hj (by omega) (by rw [List.length_set]; omega)]
      rw [getD_set_ne _ _ _ _ _ (by omega)]

theorem grow_spec (d : DynamicArray) (h : DInv d) :
    d.grow.n = d.n ∧ d.grow.capacity = d.grow.A.length ∧
    d.n < d.grow.A.length ∧ d.capacity ≤ d.grow.capacity ∧
    0 < d.grow.capacity ∧
    (∀ j, j < d.n → d.grow.A.getD j none = d.A.getD j none) ∧
    (d.grow.capacity = d.capacity ∨
      (d.n = d.capacity ∧ d.grow.capacity = 2 * d.capacity)) := by
  obtain ⟨hc, hn, hl⟩ := h
  by_cases hfull : d.n = d.capacity
  · have hg : d.grow = d.resize (2 * d.capacity) := by
      simp [DynamicArray.grow, hfull]
    have hlen : (DynamicArray.copyLoop d.A (makeArray (2 * d.capacity)) d.n).length
        = 2 * d.capacity := by
      rw [copyLoop_length]; simp [makeArray]
    rw [hg]
    refine ⟨rfl, hlen.symm, ?_, ?_, ?_, ?_, Or.inr ⟨hfull, rfl⟩⟩
    · show d.n <
        (DynamicArray.copyLoop d.A (makeArray (2 * d.capacity)) d.n).length
      omega
    · show d.capacity ≤ 2 * d.capacity
      omega
    · show 0 < 2 * d.capacity
      omega
    · intro j hj
      exact copyLoop_getD_lt d.n d.A (makeArray (2 * d.capacity)) j hj
        (by simp [makeArray]; omega)
  · have hg : d.grow = d := by simp [DynamicArray.grow, hfull]
    rw [hg]
    exact ⟨rfl, hl.symm, by omega, le_refl _, hc, fun j _ => rfl, Or.inl rfl⟩

/-! ### DynamicArray: insert (C7) -/

/-- Claim C7 — `insert(k, v)` on a well-formed array with `0 ≤ k ≤ n`:
the element at `k` becomes `v`, every element previously at an index
`i ≥ k` is now at `i + 1`, indices below `k` are unchanged, and the
length grows from `n` to `n + 1`. -/
theorem dynArray_insert_spec (d : DynamicArray) (k : Nat) (v : Int)
    (hinv : DInv d) (hk : k ≤ d.n) :
    (d.insert k v).n = d.n + 1 ∧
    (d.insert k v).getItem k = Except.ok (some v) ∧
    (∀ i, i < k → (d.insert k v).getItem i = d.getItem i) ∧
    (∀ i, k ≤ i → i < d.n → (d.insert k v).getItem (i + 1) = d.getItem i) := by
  obtain ⟨hgn, hgcl, hgnd, hgcap, hgpos, hgpres, hgdbl⟩ := grow_spec d hinv
  have hsl : (DynamicArray.shiftUp d.grow.A k (d.grow.n - k)).length
      = d.grow.A.length := shiftUp_length _ _ _
  have hins : d.insert k v =
      ⟨d.grow.n + 1, d.grow.capacity,
        (DynamicArray.shiftUp d.grow.A k (d.grow.n - k)).set k (some v)⟩ := rfl
  refine ⟨by rw [hins]; simp [hgn], ?_, ?_, ?_⟩
  · rw [hins]
    simp only [DynamicArray.getItem]
    rw [if_pos (by omega)]
    rw [getD_set_eq _ _ _ _ (by rw [hsl]; omega)]
  · intro i hi
    rw [hins]
    simp only [DynamicArray.getItem]
    rw [if_pos (by omega), if_pos (by omega)]
    rw [getD_set_ne _ _ _ _ _ (by omega)]
    rw [shiftUp_getD_le _ _ _ _ (by omega)]
    rw [hgpres i (by omega)]
  · intro i hik hin
    rw [hins]
    simp only [DynamicArray.getItem]
    rw [if_pos (by omega), if_pos (by omega)]
    rw [getD_set_ne _ _ _ _ _ (by omega)]
    rw [shiftUp_getD_mid _ _ _ _ (by omega) (by omega) (by rw [hgn]; omega)]
    simp only [Nat.add_sub_cancel]
    exact congrArg Except.ok (hgpres i hin)

/-- Witness for C7 at a concrete array `[1, 2]` (capacity 2, full):
inserting 5 at index 1 doubles the capacity, places 5 at index 1,
keeps index 0, and moves the old index 1 to index 2. -/
theorem dynArray_insert_spec_witness :
    ((DynamicArray.mk 2 2 [some 1, some 2]).insert 1 5).n = 3 ∧
    ((DynamicArray.mk 2 2 [some 1, some 2]).insert 1 5).getItem 1
        = Except.ok (some 5) ∧
    ((DynamicArray.mk 2 2 [some 1, some 2]).insert 1 5).getItem 0
        = (DynamicArray.mk 2 2 [some 1, some 2]).getItem 0 ∧
    ((DynamicArray.mk 2 2 [some 1, some 2]).insert 1 5).getItem 2
        = (DynamicArray.mk 2 2 [some 1, some 2]).getItem 1 := by
  have h := dynArray_insert_spec (DynamicArray.mk 2 2 [some 1, some 2]) 1 5
    (by refine ⟨by decide, by decide, by decide⟩) (by decide)
  exact ⟨h.1, h.2.1, h.2.2.1 0 (by decide), h.2.2.2 1 (le_refl 1) (by decide)⟩

/-! ### DynamicArray: remove (C6) -/

theorem removeLoop_no_match : ∀ (m : Nat) (d : DynamicArray) (v : Int) (k : Nat),
    d.n ≤ k + m →
    (∀ j, k ≤ j → j < d.n → d.A.getD j none ≠ some v) →
    d.removeLoop v k = (Except.error PyErr.notFound, d) := by
  intro m
  induction m with
  | zero =>
    intro d v k hm _
    rw [DynamicArray.removeLoop]
    rw [dif_neg (by omega)]
  | succ m2 ih =>
    intro d v k hm hno
    rw [DynamicArray.removeLoop]
    by_cases hlt : k < d.n
    · rw [dif_pos hlt, if_neg (hno k (le_refl k) hlt)]
      exact ih d v (k + 1) (by omega) (fun j hj1 hj2 => hno j (by omega) hj2)
    · rw [dif_neg hlt]

theorem removeLoop_found : ∀ (m : Nat) (d : DynamicArray) (v : Int) (k k0 : Nat),
    k0 - k ≤ m → k ≤ k0 → k0 < d.n →
    d.A.getD k0 none = some v →
    (∀ j, k ≤ j → j < k0 → d.A.getD j none ≠ some v) →
    d.removeLoop v k = (Except.ok (), d.removeAt k0) := by
  intro m
  induction m with
  | zero =>
    intro d v k k0 hm hle hlt hmatch _
    have hkk : k = k0 := by omega
    subst hkk
    rw [DynamicArray.removeLoop, dif_pos hlt, if_pos hmatch]
  | succ m2 ih =>
    intro d v k k0 hm hle hlt hmatch hno
    by_cases hkk : k = k0
    · subst hkk
      rw [DynamicArray.removeLoop, dif_pos hlt, if_pos hmatch]
    · rw [DynamicArray.removeLoop, dif_pos (by omega),
        if_neg (hno k (le_refl k) (by omega))]
      exact ih d v (k + 1) k0 (by omega) (by omega) hlt hmatch
        (fun j hj1 hj2 => hno j (by omega) hj2)

theorem removeLoop_cases : ∀ (m : Nat) (d : DynamicArray) (v : Int) (k : Nat),
    d.n ≤ k + m →
    (d.removeLoop v k).2 = d ∨
      ∃ k0, k0 < d.n ∧ (d.removeLoop v k).2 = d.removeAt k0 := by
  intro m
  induction m with
  | zero =>
    intro d v k hm
    rw [DynamicArray.removeLoop, dif_neg (by omega)]
    exact Or.inl rfl
  | succ m2 ih =>
    intro d v k hm
    rw [DynamicArray.removeLoop]
    by_cases hlt : k < d.n
    · rw [dif_pos hlt]
      by_cases hmatch : d.A.getD k none = some v
      · rw [if_pos hmatch]
        exact Or.inr ⟨k, hlt, rfl⟩
      · rw [if_neg hmatch]
        exact ih d v (k + 1) (by omega)
    · rw [dif_neg hlt]
      exact Or.inl rfl

/-- Claim C6 — `remove(value)` on a well-formed array: it succeeds iff some
element of `[0, n)` equals `value`; it raises `NotFound` (ValueError)
iff no element does, leaving the array unchanged; on success it removes
exactly the first occurrence, shifts the subsequent elements one slot
left, clears the vacated last slot, and decreases the length by one. -/
theorem dynArray_remove_spec (d : DynamicArray) (v : Int) (hinv : DInv d) :
    ((d.remove v).1 = Except.ok () ↔ ∃ k, k < d.n ∧ d.A.getD k none = some v) ∧
    ((d.remove v).1 = Except.error PyErr.notFound ↔
      ∀ k, k < d.n → d.A.getD k none ≠ some v) ∧
    ((d.remove v).1 = Except.error PyErr.notFound → (d.remove v).2 = d) ∧
    (∀ k0, k0 < d.n → d.A.getD k0 none = some v →
      (∀ j, j < k0 → d.A.getD j none ≠ some v) →
      (d.remove v).2.n = d.n - 1 ∧
      (d.remove v).2.capacity = d.capacity ∧
      (∀ j, j < k0 → (d.remove v).2.A.getD j none = d.A.getD j none) ∧
      (∀ j, k0 ≤ j → j + 1 < d.n →
        (d.remove v).2.A.getD j none = d.A.getD (j + 1) none) ∧
      (d.remove v).2.A.getD (d.n - 1) none = none) := by
  obtain ⟨hc, hn, hl⟩ := hinv
  have hmain : ∀ k0, k0 < d.n → d.A.getD k0 none = some v →
      (∀ j, j < k0 → d.A.getD j none ≠ some v) →
      d.remove v = (Except.ok (), d.removeAt k0) := by
    intro k0 h1 h2 h3
    exact removeLoop_found k0 d v 0 k0 (by omega) (by omega) h1 h2
      (fun j _ hj => h3 j hj)
  constructor
  · constructor
    · intro hok
      by_contra hno
      push_neg at hno
      have := removeLoop_no_match d.n d v 0 (by omega)
        (fun j _ hj => hno j hj)
      rw [DynamicArray.remove, this] at hok
      exact absurd hok (by simp)
    · rintro ⟨k, hk, hkv⟩
      have hex : ∃ j, j < d.n ∧ d.A.getD j none = some v := ⟨k, hk, hkv⟩
      have hfind := Nat.find_spec hex
      have hmin := fun j (hj : j < Nat.find hex) => Nat.find_min hex hj
      have := hmain (Nat.find hex) hfind.1 hfind.2
        (fun j hj => by
          intro hjv
          exact hmin j hj ⟨by omega, hjv⟩)
      rw [this]
  · constructor
    · constructor
      · intro herr
        intro k hk hkv
        have hex : ∃ j, j < d.n ∧ d.A.getD j none = some v := ⟨k, hk, hkv⟩
        have hfind := Nat.find_spec hex
        have hmin := fun j (hj : j < Nat.find hex) => Nat.find_min hex hj
        have := hmain (Nat.find hex) hfind.1 hfind.2
          (fun j hj => by
            intro hjv
            exact hmin j hj ⟨by omega, hjv⟩)
        rw [this] at herr
        exact absurd herr (by simp)
      · intro hno
        have := removeLoop_no_match d.n d v 0 (by omega)
          (fun j _ hj => hno j hj)
        rw [DynamicArray.remove, this]
    · constructor
      · intro herr
        by_cases hex : ∃ j, j < d.n ∧ d.A.getD j none = some v
        · obtain ⟨k, hk, hkv⟩ := hex
          have hex2 : ∃ j, j < d.n ∧ d.A.getD j none = some v := ⟨k, hk, hkv⟩
          have hfind := Nat.find_spec hex2
          have hmin := fun j (hj : j < Nat.find hex2) => Nat.find_min hex2 hj
          have := hmain (Nat.find hex2) hfind.1 hfind.2
            (fun j hj => by
              intro hjv
              exact hmin j hj ⟨by omega, hjv⟩)
          rw [this] at herr
          exact absurd herr (by simp)
        · push_neg at hex
          have := removeLoop_no_match d.n d v 0 (by omega)
            (fun j _ hj => hex j hj)
          rw [DynamicArray.remove, this]
      · intro k0 h1 h2 h3
        have hrw := hmain k0 h1 h2 h3
        rw [hrw]
        have hsl : (DynamicArray.shiftDown d.A k0 (d.n - 1 - k0)).length
            = d.A.length := shiftDown_length _ _ _
        refine ⟨rfl, rfl, ?_, ?_, ?_⟩
        · intro j hj
          show ((DynamicArray.shiftDown d.A k0 (d.n - 1 - k0)).set
              (d.n - 1) none).getD j none = d.A.getD j none
          rw [getD_set_ne _ _ _ _ _ (by omega)]
          exact shiftDown_getD_lt _ _ _ _ (by omega)
        · intro j hj1 hj2
          show ((DynamicArray.shiftDown d.A k0 (d.n - 1 - k0)).set
              (d.n - 1) none).getD j none = d.A.getD (j + 1) none
          rw [getD_set_ne _ _ _ _ _ (by omega)]
          exact shiftDown_getD_mid _ _ _ _ (by omega) (by omega) (by omega)
        · show ((DynamicArray.shiftDown d.A k0 (d.n - 1 - k0)).set
              (d.n - 1) none).getD (d.n - 1) none = none
          rw [getD_set_eq _ _ _ _ (by rw [hsl]; omega)]

/-- Witness for C6 at a concrete array `[1, 2, 1]` (capacity 4):
removing value 2 succeeds, shrinks the count to 2, and shifts the
second occurrence of 1 into index 1. -/
theorem dynArray_remove_spec_witness :
    ((DynamicArray.mk 3 4 [some 1, some 2, some 1, none]).remove 2).1
        = Except.ok () ∧
    ((DynamicArray.mk 3 4 [some 1, some 2, some 1, none]).remove 2).2.n = 2 ∧
    ((DynamicArray.mk 3 4 [some 1, some 2, some 1, none]).remove
        2).2.A.getD 1 none = some 1 := by
  have h := dynArray_remove_spec (DynamicArray.mk 3 4 [some 1, some 2, some 1, none])
    2 (by refine ⟨by decide, by decide, by decide⟩)
  have hsucc := h.2.2.2 1 (by decide) (by decide) (by decide)
  exact ⟨h.1.mpr ⟨1, by decide, by decide⟩, hsucc.1,
    hsucc.2.2.2.1 1 (le_refl 1) (by decide)⟩

/-! ### DynamicArray: capacity invariant across operation sequences (C5) -/

/-- A public mutating operation of the DynamicArray (indexing is a pure
accessor and cannot change the state).  The claim restricts `insert`
to its documented precondition `0 ≤ k ≤ n`, so `runOp` applies `insert`
only under that guard. -/
inductive DynOp where
  | append (v : Int)
  | insert (k : Nat) (v : Int)
  | remove (v : Int)

namespace DynamicArray

/-- Execute one operation; a failing `remove` leaves the state as the
source does (the ValueError is raised after a pure scan). -/
def runOp (d : DynamicArray) : DynOp → DynamicArray
  | DynOp.append v => d.append v
  | DynOp.insert k v => if k ≤ d.n then d.insert k v else d
  | DynOp.remove v => (d.remove v).2

/-- Execute a sequence of operations from left to right. -/
def runOps (d : DynamicArray) (ops : List DynOp) : DynamicArray :=
  ops.foldl runOp d

end DynamicArray

theorem DInv_empty : DInv DynamicArray.empty :=
  ⟨by decide, by decide, by decide⟩

theorem runOp_step (d : DynamicArray) (op : DynOp) (h : DInv d) :
    DInv (d.runOp op) ∧ d.capacity ≤ (d.runOp op).capacity ∧
    ((d.runOp op).capacity = d.capacity ∨
      (d.n = d.capacity ∧ (d.runOp op).capacity = 2 * d.capacity)) := by
  obtain ⟨hgn, hgcl, hgnd, hgcap, hgpos, hgpres, hgdbl⟩ := grow_spec d h
  cases op with
  | append v =>
    have happ : d.runOp (DynOp.append v) =
        ⟨d.grow.n + 1, d.grow.capacity, d.grow.A.set d.grow.n (some v)⟩ := rfl
    rw [happ]
    refine ⟨⟨by simpa using hgpos, ?_, ?_⟩, by simpa using hgcap, ?_⟩
    · simp only
      rcases hgdbl with hsame | ⟨hfull, hdouble⟩
      · obtain ⟨_, hn2, _⟩ := h
        rw [hgn]
        by_cases hfull2 : d.n = d.capacity
        · exfalso
          have : d.grow = d.resize (2 * d.capacity) := by
            simp [DynamicArray.grow, hfull2]
          rw [this] at hsame
          simp only [DynamicArray.resize] at hsame
          omega
        · omega
      · rw [hgn, hdouble]
        omega
    · simp only [List.length_set]
      rw [← hgcl]
    · simp only
      rcases hgdbl with hsame | ⟨hfull, hdouble⟩
      · exact Or.inl hsame
      · exact Or.inr ⟨hfull, hdouble⟩
  | insert k v =>
    by_cases hk : k ≤ d.n
    · have hins : d.runOp (DynOp.insert k v) = d.insert k v := by
        simp [DynamicArray.runOp, hk]
      rw [hins]
      have hins2 : d.insert k v =
          ⟨d.grow.n + 1, d.grow.capacity,
            (DynamicArray.shiftUp d.grow.A k (d.grow.n - k)).set k (some v)⟩ := rfl
      rw [hins2]
      refine ⟨⟨by simpa using hgpos, ?_, ?_⟩, by simpa using hgcap, ?_⟩
      · simp only
        rcases hgdbl with hsame | ⟨hfull, hdouble⟩
        · obtain ⟨_, hn2, _⟩ := h
          rw [hgn]
          by_cases hfull2 : d.n = d.capacity
          · exfalso
            have : d.grow = d.resize (2 * d.capacity) := by
              simp [DynamicArray.grow, hfull2]
            rw [this] at hsame
            simp only [DynamicArray.resize] at hsame
            omega
          · omega
        · rw [hgn, hdouble]
          omega
      · simp only [List.length_set]
        rw [shiftUp_length, ← hgcl]
      · simp only
        rcases hgdbl with hsame | ⟨hfull, hdouble⟩
        · exact Or.inl hsame
        · exact Or.inr ⟨hfull, hdouble⟩
    · have hins : d.runOp (DynOp.insert k v) = d := by
        simp [DynamicArray.runOp, hk]
      rw [hins]
      exact ⟨h, le_refl _, Or.inl rfl⟩
  | remove v =>
    have hrm : d.runOp (DynOp.remove v) = (d.remove v).2 := rfl
    rw [hrm]
    obtain ⟨hc, hn, hl⟩ := h
    rcases removeLoop_cases d.n d v 0 (by omega) with hid | ⟨k0, hk0, hat⟩
    · rw [DynamicArray.remove, hid]
      exact ⟨⟨hc, hn, hl⟩, le_refl _, Or.inl rfl⟩
    · rw [DynamicArray.remove, hat]
      refine ⟨⟨hc, ?_, ?_⟩, le_refl _, Or.inl rfl⟩
      · show d.n - 1 ≤ d.capacity
        omega
      · show ((DynamicArray.shiftDown d.A k0 (d.n - 1 - k0)).set
            (d.n - 1) none).length = d.capacity
        rw [List.length_set, shiftDown_length]
        exact hl

theorem runOps_inv : ∀ (ops : List DynOp) (d : DynamicArray), DInv d →
    DInv (d.runOps ops) ∧ d.capacity ≤ (d.runOps ops).capacity := by
  intro ops
  induction ops with
  | nil => intro d h; exact ⟨h, le_refl _⟩
  | cons op rest ih =>
    intro d h
    have hstep := runOp_step d op h
    have hrest := ih (d.runOp op) hstep.1
    have hrw : d.runOps (op :: rest) = (d.runOp op).runOps rest := rfl
    rw [hrw]
    exact ⟨hrest.1, le_trans hstep.2.1 hrest.2⟩

/-- Claim C5 — across every sequence of public operations (append, insert
with `0 ≤ k ≤ n`, remove; indexing is a pure accessor), the reachable
state satisfies `n ≤ capacity`, the capacity never decreases along the
run, and a further operation either keeps the capacity or doubles it,
the latter only when the array is full (`n = capacity`). -/
theorem dynArray_capacity_inv (ops : List DynOp) :
    (DynamicArray.empty.runOps ops).n ≤ (DynamicArray.empty.runOps ops).capacity ∧
    (∀ pre suf, ops = pre ++ suf →
      (DynamicArray.empty.runOps pre).capacity ≤
        (DynamicArray.empty.runOps ops).capacity) ∧
    (∀ op, ((DynamicArray.empty.runOps ops).runOp op).capacity =
        (DynamicArray.empty.runOps ops).capacity ∨
      ((DynamicArray.empty.runOps ops).n = (DynamicArray.empty.runOps ops).capacity ∧
        ((DynamicArray.empty.runOps ops).runOp op).capacity =
          2 * (DynamicArray.empty.runOps ops).capacity)) := by
  have hall := runOps_inv ops DynamicArray.empty DInv_empty
  refine ⟨hall.1.2.1, ?_, ?_⟩
  · intro pre suf hsplit
    subst hsplit
    have hpre := runOps_inv pre DynamicArray.empty DInv_empty
    have hrw : DynamicArray.empty.runOps (pre ++ suf) =
        (DynamicArray.empty.runOps pre).runOps suf := by
      simp [DynamicArray.runOps, List.foldl_append]
    rw [hrw]
    exact (runOps_inv suf _ hpre.1).2
  · intro op
    exact (runOp_step _ op hall.1).2.2

/-- Witness for C5 at a concrete run: three appends from a fresh array,
with the prefix split after the first append. -/
theorem dynArray_capacity_inv_witness :
    (DynamicArray.empty.runOps
        [DynOp.append 1, DynOp.append 2, DynOp.append 3]).n ≤
      (DynamicArray.empty.runOps
        [DynOp.append 1, DynOp.append 2, DynOp.append 3]).capacity ∧
    (DynamicArray.empty.runOps [DynOp.append 1]).capacity ≤
      (DynamicArray.empty.runOps
        [DynOp.append 1, DynOp.append 2, DynOp.append 3]).capacity :=
  ⟨(dynArray_capacity_inv [DynOp.append 1, DynOp.append 2, DynOp.append 3]).1,
    (dynArray_capacity_inv [DynOp.append 1, DynOp.append 2, DynOp.append 3]).2.1
      [DynOp.append 1] [DynOp.append 2, DynOp.append 3] rfl⟩

/-! ### LinkedQueue

`class LinkedQueue(AbstractCollection)`: `_front` and `_rear` are two
references into one chain of `Node`s, and `remove` splices interior
nodes while `_rear` keeps aliasing whatever node it pointed to.  To
capture that aliasing faithfully, nodes live in an explicit heap: a
list of `QNode`s indexed by allocation order, with `Option Nat` as the
(nullable) reference type.  Reading through a reference uses
`List.getD` with an irrelevant default (a Python reference to an
existing node never dangles; all addresses used by well-formed states
are in range). -/

structure QNode where
  data : Int
  next : Option Nat
deriving DecidableEq

/-- Irrelevant default node for out-of-range heap reads. -/
def qnilNode : QNode := ⟨0, none⟩

structure LinkedQueue where
  heap : List QNode
  front : Option Nat
  rear : Option Nat
  size : Nat
deriving DecidableEq

namespace LinkedQueue

/-- Fresh queue: `_front = _rear = None`, `_size = 0`. -/
def empty : LinkedQueue := ⟨[], none, none, 0⟩

/-- `add(item)` (enqueue): `newNode = Node(item, None)`; when empty
(`len(self) == 0`) the new node becomes `_front`, otherwise
`_rear.next = newNode`; then `_rear = newNode; _size += 1`.  The new
node is allocated at the next free heap address.  (When the queue is
nonempty but `_rear` is `None` — unreachable from the API — Python
would raise; the model leaves the heap unmutated there.) -/
def add (q : LinkedQueue) (item : Int) : LinkedQueue :=
  let a := q.heap.length
  let heap1 :=
    if q.size = 0 then q.heap
    else
      match q.rear with
      | some r => q.heap.set r ⟨(q.heap.getD r qnilNode).data, some a⟩
      | none => q.heap
  { heap := heap1 ++ [⟨item, none⟩],
    front := if q.size = 0 then some a else q.front,
    rear := some a,
    size := q.size + 1 }

/-- `pop()` (dequeue): `KeyError` (EmptyCollection) when empty, raised
before any mutation; else detach the front node, and reset `_rear` to
`None` exactly when the new `_front` is `None`. -/
def pop (q : LinkedQueue) : (Except PyErr Int) × LinkedQueue :=
  if q.size = 0 then (Except.error PyErr.emptyCollection, q)
  else
    match q.front with
    | none => (Except.error PyErr.attributeError, q)
    | some f =>
      let node := q.heap.getD f qnilNode
      (Except.ok node.data,
        { q with front := node.next,
                 rear := if node.next = none then none else q.rear,
                 size := q.size - 1 })

/-- `peek()`: same empty check, no mutation. -/
def peek (q : LinkedQueue) : Except PyErr Int :=
  if q.size = 0 then Except.error PyErr.emptyCollection
  else
    match q.front with
    | none => Except.error PyErr.attributeError
    | some f => Except.ok (q.heap.getD f qnilNode).data

/-- The probe walk of `remove`: `while index > 1: probe = probe.next`,
following `next` the given number of hops (`none` if a `None`
reference is reached, where Python would raise). -/
def walkO (h : List QNode) : Option Nat → Nat → Option Nat
  | o, 0 => o
  | none, _ + 1 => none
  | some a, steps + 1 => walkO h (h.getD a qnilNode).next steps

/-- `remove(index)`: `AttributeError` unless `0 <= index < size`
(negative Python ints are outside the `Nat` index model).  Index 0
detaches the front node; otherwise the probe walks `index - 1` hops
from `_front` and splices out `probe.next`.  After the size decrement,
`_rear` is reset to `None` only when the queue became empty — the
source never re-points `_rear` at the new last node. -/
def remove (q : LinkedQueue) (index : Nat) : (Except PyErr Int) × LinkedQueue :=
  if index ≥ q.size then (Except.error PyErr.attributeError, q)
  else if index = 0 then
    match q.front with
    | none => (Except.error PyErr.attributeError, q)
    | some f =>
      let node := q.heap.getD f qnilNode
      let q1 : LinkedQueue := { q with front := node.next, size := q.size - 1 }
      (Except.ok node.data, if q1.size = 0 then { q1 with rear := none } else q1)
  else
    match walkO q.heap q.front (index - 1) with
    | none => (Except.error PyErr.attributeError, q)
    | some p =>
      let pnode := q.heap.getD p qnilNode
      match pnode.next with
      | none => (Except.error PyErr.attributeError, q)
      | some t =>
        let tnode := q.heap.getD t qnilNode
        let q1 : LinkedQueue :=
          { q with heap := q.heap.set p ⟨pnode.data, tnode.next⟩,
                   size := q.size - 1 }
        (Except.ok tnode.data, if q1.size = 0 then { q1 with rear := none } else q1)

/-- Addresses reachable from a reference by following `next`, fueled
(the fuel `heap.length` suffices for every well-formed chain; Python's
`__iter__` just walks until `None`). -/
def addrChain (h : List QNode) : Nat → Option Nat → List Nat
  | 0, _ => []
  | _ + 1, none => []
  | fuel + 1, some a => a :: addrChain h fuel (h.getD a qnilNode).next

/-- `__iter__`: data of the chain from `_front`, in chain order. -/
def iterList (q : LinkedQueue) : List Int :=
  (addrChain q.heap q.heap.length q.front).map
    fun a => (q.heap.getD a qnilNode).data

/-- Pop `n` times, collecting the returned items; an error stops the run. -/
def popN : LinkedQueue → Nat → List Int
  | _, 0 => []
  | q, n + 1 =>
    match q.pop with
    | (Except.ok v, q2) => v :: q2.popN n
    | (Except.error _, _) => []

end LinkedQueue

/-- Build a queue by enqueuing the values of `es` in order. -/
def buildQueue (es : List Int) : LinkedQueue :=
  es.foldl LinkedQueue.add LinkedQueue.empty

/-- `Chain h o as`: starting from reference `o`, following `next`
visits exactly the addresses `as` and ends at a `None` reference. -/
inductive Chain (h : List QNode) : Option Nat → List Nat → Prop
  | nil : Chain h none []
  | cons {a : Nat} {rest : List Nat} :
      a < h.length → Chain h (h.getD a qnilNode).next rest →
      Chain h (some a) (a :: rest)

/-- `QRepr q xs`: the queue state `q` is a well-formed representation
of the item sequence `xs` — the chain from `_front` consists of
distinct addresses carrying the data `xs`, `_size` is its length, and
`_rear` is its last address (`None` when empty).  This is the
data-model invariant of the spec, and it holds for every state built
by `add`/`pop` from empty (it is exactly what `remove` can break). -/
def QRepr (q : LinkedQueue) (xs : List Int) : Prop :=
  ∃ as : List Nat, Chain q.heap q.front as ∧ as.Nodup ∧
    xs = as.map (fun a => (q.heap.getD a qnilNode).data) ∧
    q.size = as.length ∧ q.rear = as.getLast?

theorem chain_mem_lt {h : List QNode} :
    ∀ {o : Option Nat} {as : List Nat}, Chain h o as →
    ∀ a ∈ as, a < h.length := by
  intro o as hch
  induction hch with
  | nil => intro a ha; simp at ha
  | cons halen hrest ih =>
    intro b hb
    rcases List.mem_cons.mp hb with hb | hb
    · subst hb; exact halen
    · exact ih b hb

theorem chain_nil_inv {h : List QNode} {o : Option Nat}
    (hch : Chain h o []) : o = none := by
  cases hch; rfl

theorem chain_cons_inv {h : List QNode} {o : Option Nat} {a : Nat}
    {rest : List Nat} (hch : Chain h o (a :: rest)) : o = some a := by
  cases hch; rfl

theorem chain_frame {h h2 : List QNode} :
    ∀ {o : Option Nat} {as : List Nat}, Chain h o as →
    (∀ a ∈ as, a < h2.length) →
    (∀ a ∈ as, h2.getD a qnilNode = h.getD a qnilNode) →
    Chain h2 o as := by
  intro o as hch
  induction hch with
  | nil => intro _ _; exact Chain.nil
  | cons halen hrest ih =>
    intro hlen hsame
    refine Chain.cons (hlen _ (List.mem_cons_self _ _)) ?_
    rw [hsame _ (List.mem_cons_self _ _)]
    exact ih (fun b hb => hlen b (List.mem_cons_of_mem _ hb))
      (fun b hb => hsame b (List.mem_cons_of_mem _ hb))

theorem getLast?_mem_list {α : Type} {l : List α} {r : α}
    (h : l.getLast? = some r) : r ∈ l := by
  rcases List.mem_getLast?_eq_getLast (Option.mem_def.mpr h) with ⟨hne, heq⟩
  rw [heq]
  exact List.getLast_mem hne

theorem nodup_bounded_length {l : List Nat} {n : Nat}
    (hnd : l.Nodup) (hlt : ∀ a ∈ l, a < n) : l.length ≤ n := by
  classical
  have hcard : l.toFinset.card = l.length := List.toFinset_card_of_nodup hnd
  have hsub : l.toFinset ⊆ Finset.range n := by
    intro x hx
    simp only [List.mem_toFinset] at hx
    exact Finset.mem_range.mpr (hlt x hx)
  have := Finset.card_le_card hsub
  rw [hcard, Finset.card_range] at this
  exact this

/-- Extending a chain by one node at address `c`: the heap `h2` agrees
with `h` on the chain except at the old last address `r`, whose `next`
now points to `c`, and the node at `c` terminates the chain. -/
theorem chain_snoc : ∀ (as : List Nat) (h h2 : List QNode) (o : Option Nat)
    (r c : Nat),
    Chain h o as → as.getLast? = some r → as.Nodup →
    (∀ a ∈ as, a ≠ r → h2.getD a qnilNode = h.getD a qnilNode) →
    h2.getD r qnilNode = ⟨(h.getD r qnilNode).data, some c⟩ →
    (h2.getD c qnilNode).next = none →
    (∀ a ∈ as, a < h2.length) → c < h2.length →
    Chain h2 o (as ++ [c]) := by
  intro as
  induction as with
  | nil =>
    intro h h2 o r c hch hlast _ _ _ _ _ _
    simp at hlast
  | cons a rest ih =>
    intro h h2 o r c hch hlast hnd hpres hr hcnext hlt hclt
    have ho : o = some a := chain_cons_inv hch
    subst ho
    cases hch with
    | cons halen hnext =>
      cases rest with
      | nil =>
        have har : a = r := by simpa using hlast
        subst har
        refine Chain.cons (hlt a (List.mem_cons_self a _)) ?_
        rw [hr]
        show Chain h2 (some c) [c]
        refine Chain.cons hclt ?_
        rw [hcnext]
        exact Chain.nil
      | cons b rest2 =>
        have hlast2 : (b :: rest2).getLast? = some r := by
          rw [← List.getLast?_cons_cons (a := a)]
          exact hlast
        have hrmem : r ∈ b :: rest2 := getLast?_mem_list hlast2
        have hanotin : a ∉ b :: rest2 := (List.nodup_cons.mp hnd).1
        have hane : a ≠ r := fun he => hanotin (he ▸ hrmem)
        refine Chain.cons (hlt a (List.mem_cons_self a _)) ?_
        rw [hpres a (List.mem_cons_self a _) hane]
        exact ih h h2 _ r c hnext hlast2 (List.nodup_cons.mp hnd).2
          (fun x hx hxr => hpres x (List.mem_cons_of_mem _ hx) hxr)
          hr hcnext (fun x hx => hlt x (List.mem_cons_of_mem _ hx)) hclt

theorem qrepr_empty : QRepr LinkedQueue.empty [] :=
  ⟨[], Chain.nil, List.nodup_nil, rfl, rfl, rfl⟩

/-- `add` preserves the representation invariant, appending the new
item at the end of the represented sequence. -/
theorem qrepr_add (q : LinkedQueue) (xs : List Int) (v : Int)
    (hq : QRepr q xs) : QRepr (q.add v) (xs ++ [v]) := by
  obtain ⟨as, hch, hnd, hmap, hsz, hrear⟩ := hq
  cases as with
  | nil =>
    have hfront : q.front = none := chain_nil_inv hch
    have hsz0 : q.size = 0 := by simpa using hsz
    have hxs : xs = [] := by simpa using hmap
    have hadd : q.add v =
        { heap := q.heap ++ [⟨v, none⟩], front := some q.heap.length,
          rear := some q.heap.length, size := 1 } := by
      simp [LinkedQueue.add, hsz0]
    rw [hadd, hxs]
    refine ⟨[q.heap.length], ?_, by simp, ?_, rfl, rfl⟩
    · refine Chain.cons (by simp) ?_
      rw [getD_append_len]
      exact Chain.nil
    · simp [getD_append_len]
  | cons a0 rest =>
    have hfront : q.front = some a0 := chain_cons_inv hch
    have hszpos : ¬ q.size = 0 := by rw [hsz]; simp
    obtain ⟨r, hr⟩ : ∃ r, (a0 :: rest).getLast? = some r := by
      cases h2 : (a0 :: rest).getLast? with
      | none =>
        rw [List.getLast?_eq_none_iff] at h2
        exact absurd h2 (by simp)
      | some r => exact ⟨r, rfl⟩
    have hrearr : q.rear = some r := by rw [hrear, hr]
    have hmemlt : ∀ x ∈ a0 :: rest, x < q.heap.length := chain_mem_lt hch
    have hrlt : r < q.heap.length := hmemlt r (getLast?_mem_list hr)
    have hadd : q.add v =
        { heap := (q.heap.set r ⟨(q.heap.getD r qnilNode).data,
            some q.heap.length⟩) ++ [⟨v, none⟩],
          front := q.front, rear := some q.heap.length,
          size := q.size + 1 } := by
      simp [LinkedQueue.add, hszpos, hrearr]
    have hsetlen : (q.heap.set r ⟨(q.heap.getD r qnilNode).data,
        some q.heap.length⟩).length = q.heap.length := List.length_set _ _ _
    have hlen2 : ((q.heap.set r ⟨(q.heap.getD r qnilNode).data,
        some q.heap.length⟩) ++ [(⟨v, none⟩ : QNode)]).length
        = q.heap.length + 1 := by
      rw [List.length_append, hsetlen]
      rfl
    have hgetr : ((q.heap.set r ⟨(q.heap.getD r qnilNode).data,
        some q.heap.length⟩) ++ [(⟨v, none⟩ : QNode)]).getD r qnilNode
        = ⟨(q.heap.getD r qnilNode).data, some q.heap.length⟩ := by
      rw [getD_append_lt _ _ _ _ (by rw [hsetlen]; exact hrlt)]
      exact getD_set_eq _ _ _ _ hrlt
    have hgetc : ((q.heap.set r ⟨(q.heap.getD r qnilNode).data,
        some q.heap.length⟩) ++ [(⟨v, none⟩ : QNode)]).getD
          q.heap.length qnilNode = ⟨v, none⟩ := by
      have hx := getD_append_len (q.heap.set r ⟨(q.heap.getD r qnilNode).data,
        some q.heap.length⟩) (⟨v, none⟩ : QNode) qnilNode
      rw [hsetlen] at hx
      exact hx
    have hgetother : ∀ x ∈ a0 :: rest, x ≠ r →
        ((q.heap.set r ⟨(q.heap.getD r qnilNode).data,
          some q.heap.length⟩) ++ [(⟨v, none⟩ : QNode)]).getD x qnilNode
          = q.heap.getD x qnilNode := by
      intro x hx hxr
      rw [getD_append_lt _ _ _ _ (by rw [hsetlen]; exact hmemlt x hx)]
      exact getD_set_ne _ _ _ _ _ (fun he => hxr he.symm)
    have hcnot : q.heap.length ∉ a0 :: rest := by
      intro hc
      exact absurd (hmemlt _ hc) (lt_irrefl _)
    rw [hadd]
    refine ⟨(a0 :: rest) ++ [q.heap.length], ?_, ?_, ?_, ?_, ?_⟩
    · show Chain ((q.heap.set r ⟨(q.heap.getD r qnilNode).data,
        some q.heap.length⟩) ++ [(⟨v, none⟩ : QNode)]) q.front
        ((a0 :: rest) ++ [q.heap.length])
      exact chain_snoc (a0 :: rest) q.heap _ q.front r q.heap.length hch hr hnd
        hgetother hgetr (by rw [hgetc]) (fun x hx => by
          have h1 := hmemlt x hx
          rw [hlen2]
          omega)
        (by rw [hlen2]; omega)
    · rw [List.nodup_append]
      exact ⟨hnd, List.nodup_singleton _,
        by simpa [List.disjoint_singleton] using hcnot⟩
    · show xs ++ [v] = ((a0 :: rest) ++ [q.heap.length]).map
        (fun a => (((q.heap.set r ⟨(q.heap.getD r qnilNode).data,
          some q.heap.length⟩) ++ [(⟨v, none⟩ : QNode)]).getD a qnilNode).data)
      rw [List.map_append, hmap]
      congr 1
      · refine List.map_congr_left ?_
        intro x hx
        by_cases hxr : x = r
        · subst hxr
          rw [hgetr]
        · rw [hgetother x hx hxr]
      · rw [List.map_cons, List.map_nil, hgetc]
    · show q.size + 1 = ((a0 :: rest) ++ [q.heap.length]).length
      rw [hsz, List.length_append]
      rfl
    · show (some q.heap.length : Option Nat)
        = ((a0 :: rest) ++ [q.heap.length]).getLast?
      rw [List.getLast?_concat]

/-- `pop` on a represented nonempty queue returns the head item and
represents the tail. -/
theorem qrepr_pop (q : LinkedQueue) (x : Int) (xs : List Int)
    (hq : QRepr q (x :: xs)) :
    (q.pop).1 = Except.ok x ∧ QRepr (q.pop).2 xs := by
  obtain ⟨as, hch, hnd, hmap, hsz, hrear⟩ := hq
  cases as with
  | nil => simp at hmap
  | cons a0 rest =>
    have hfront : q.front = some a0 := chain_cons_inv hch
    have hszpos : ¬ q.size = 0 := by rw [hsz]; simp
    rw [hfront] at hch
    cases hch with
    | cons halen hnext =>
      have hxdata : (q.heap.getD a0 qnilNode).data = x := by
        have hm := hmap
        simp only [List.map_cons, List.cons.injEq] at hm
        exact hm.1.symm
      have hpop : q.pop = (Except.ok x,
          { q with front := (q.heap.getD a0 qnilNode).next,
                   rear := if (q.heap.getD a0 qnilNode).next = none
                     then none else q.rear,
                   size := q.size - 1 }) := by
        simp [LinkedQueue.pop, hszpos, hfront, hxdata]
        simpa [List.getD_eq_getElem?_getD] using hxdata
      rw [hpop]
      refine ⟨rfl, rest, hnext, (List.nodup_cons.mp hnd).2, ?_, ?_, ?_⟩
      · have hm := hmap
        simp only [List.map_cons, List.cons.injEq] at hm
        exact hm.2
      · show q.size - 1 = rest.length
        rw [hsz]
        rfl
      · cases rest with
        | nil =>
          have : (q.heap.getD a0 qnilNode).next = none := chain_nil_inv hnext
          show (if (q.heap.getD a0 qnilNode).next = none
              then none else q.rear) = ([] : List Nat).getLast?
          rw [if_pos this]
          rfl
        | cons b rest2 =>
          have hnb : (q.heap.getD a0 qnilNode).next = some b :=
            chain_cons_inv hnext
          show (if (q.heap.getD a0 qnilNode).next = none
              then none else q.rear) = (b :: rest2).getLast?
          rw [if_neg (by rw [hnb]; simp)]
          rw [hrear, List.getLast?_cons_cons]

theorem qrepr_foldl_add : ∀ (vs : List Int) (q : LinkedQueue) (xs : List Int),
    QRepr q xs → QRepr (vs.foldl LinkedQueue.add q) (xs ++ vs) := by
  intro vs
  induction vs with
  | nil => intro q xs hq; simpa using hq
  | cons v rest ih =>
    intro q xs hq
    have := ih (q.add v) (xs ++ [v]) (qrepr_add q xs v hq)
    simpa using this

theorem qrepr_buildQueue (vs : List Int) : QRepr (buildQueue vs) vs := by
  have := qrepr_foldl_add vs LinkedQueue.empty [] qrepr_empty
  simpa [buildQueue] using this

theorem qrepr_popN : ∀ (xs : List Int) (q : LinkedQueue),
    QRepr q xs → q.popN xs.length = xs := by
  intro xs
  induction xs with
  | nil => intro q _; rfl
  | cons x rest ih =>
    intro q hq
    obtain ⟨h1, h2⟩ := qrepr_pop q x rest hq
    cases hpop : q.pop with
    | mk r1 q2 =>
      rw [hpop] at h1 h2
      simp only at h1 h2
      subst h1
      have hstep : q.popN (x :: rest).length = x :: q2.popN rest.length := by
        show q.popN (rest.length + 1) = x :: q2.popN rest.length
        simp only [LinkedQueue.popN, hpop]
      rw [hstep, ih q2 h2]

/-- Claim C2 — FIFO: enqueuing `e1..en` into a fresh queue and dequeuing `n`
times yields `e1, e2, ..., en` in that order. -/
theorem fifo_queue (es : List Int) : (buildQueue es).popN es.length = es :=
  qrepr_popN es (buildQueue es) (qrepr_buildQueue es)

/-- Claim C4 — on a well-formed non-empty queue, `remove(0)` returns the same
item as `pop()` and produces the identical post state (heap, front,
rear, size). -/
theorem queue_remove0_eq_pop (q : LinkedQueue) (xs : List Int)
    (hq : QRepr q xs) (hne : xs ≠ []) : q.remove 0 = q.pop := by
  obtain ⟨as, hch, hnd, hmap, hsz, hrear⟩ := hq
  cases as with
  | nil =>
    exact absurd (by simpa using hmap) hne
  | cons a0 rest =>
    have hfront : q.front = some a0 := chain_cons_inv hch
    rw [hfront] at hch
    cases hch with
    | cons halen hnext =>
      have hszeq : q.size = rest.length + 1 := by simpa using hsz
      cases rest with
      | nil =>
        have hnone : (q.heap.getD a0 qnilNode).next = none :=
          chain_nil_inv hnext
        have hnone2 : (q.heap[a0]?.getD qnilNode).next = none := by
          simpa [List.getD_eq_getElem?_getD] using hnone
        simp [LinkedQueue.remove, LinkedQueue.pop, hszeq, hfront, hnone, hnone2]
      | cons b rest2 =>
        have hnb : (q.heap.getD a0 qnilNode).next = some b :=
          chain_cons_inv hnext
        have hnb2 : (q.heap[a0]?.getD qnilNode).next = some b := by
          simpa [List.getD_eq_getElem?_getD] using hnb
        simp [LinkedQueue.remove, LinkedQueue.pop, hszeq, hfront, hnb, hnb2]

/-- Witness for C4 at the concrete queue built by enqueuing 5 then 7. -/
theorem queue_remove0_eq_pop_witness :
    (buildQueue [5, 7]).remove 0 = (buildQueue [5, 7]).pop :=
  queue_remove0_eq_pop (buildQueue [5, 7]) [5, 7]
    (qrepr_buildQueue [5, 7]) (by simp)

/-- Claim C1 — the rear pointer goes stale: enqueue 1 and 2, then
`remove(1)` (the rear node).  The removal returns 2, but `_rear` still
designates the spliced-out node at address 1 while the actual last node
reachable from `_front` is at address 0; the invariant of a single
chain from front to rear is broken, as the spec's demanded rear update
never happens.  A subsequent `add(3)` then appends behind the stale
rear: the size says 2 but iteration from the front yields only `[1]`. -/
theorem queue_remove_rear_stale :
    ((((LinkedQueue.empty.add 1).add 2).remove 1).1 = Except.ok 2) ∧
    ((((LinkedQueue.empty.add 1).add 2).remove 1).2.size = 1) ∧
    ((((LinkedQueue.empty.add 1).add 2).remove 1).2.rear = some 1) ∧
    ((LinkedQueue.addrChain (((LinkedQueue.empty.add 1).add 2).remove 1).2.heap
        (((LinkedQueue.empty.add 1).add 2).remove 1).2.heap.length
        (((LinkedQueue.empty.add 1).add 2).remove 1).2.front).getLast?
      = some 0) ∧
    ((((LinkedQueue.empty.add 1).add 2).remove 1).2.rear ≠
      (LinkedQueue.addrChain (((LinkedQueue.empty.add 1).add 2).remove 1).2.heap
        (((LinkedQueue.empty.add 1).add 2).remove 1).2.heap.length
        (((LinkedQueue.empty.add 1).add 2).remove 1).2.front).getLast?) ∧
    (((((LinkedQueue.empty.add 1).add 2).remove 1).2.add 3).size = 2) ∧
    (((((LinkedQueue.empty.add 1).add 2).remove 1).2.add 3).iterList = [1]) :=
  ⟨rfl, rfl, rfl, rfl, by decide, rfl, rfl⟩

/-- Claim C8 — `pop`/`peek` on a stack or queue fail with `EmptyCollection`
exactly when the collection is empty (`size = 0`), and a failing `pop`
returns the state unchanged (the error is raised before any mutation;
`peek` performs no mutation at all, which the model reflects by giving
it no state output). -/
theorem empty_error_spec (s : LinkedStack) (q : LinkedQueue)
    (hs : s.WF) (hq : ∃ xs, QRepr q xs) :
    (s.pop.1 = Except.error PyErr.emptyCollection ↔ s.size = 0) ∧
    (s.peek = Except.error PyErr.emptyCollection ↔ s.size = 0) ∧
    (∀ e, s.pop.1 = Except.error e → s.pop.2 = s) ∧
    (q.pop.1 = Except.error PyErr.emptyCollection ↔ q.size = 0) ∧
    (q.peek = Except.error PyErr.emptyCollection ↔ q.size = 0) ∧
    (∀ e, q.pop.1 = Except.error e → q.pop.2 = q) := by
  obtain ⟨xs, hq⟩ := hq
  have hstack_ne : ¬ s.size = 0 → ∃ a rest, s.items = a :: rest := by
    intro hsz
    cases hitems : s.items with
    | nil => exact absurd (by rw [hs, hitems]; rfl) hsz
    | cons a rest => exact ⟨a, rest, rfl⟩
  have hqxs : ¬ q.size = 0 → ∃ x rest, xs = x :: rest := by
    intro hqz
    cases hxs : xs with
    | nil =>
      obtain ⟨as, hch, _, hmap, hsz2, _⟩ := hq
      rw [hxs] at hmap
      cases as with
      | nil => exact absurd (by simpa using hsz2) hqz
      | cons a0 r2 => simp at hmap
    | cons x rest => exact ⟨x, rest, rfl⟩
  refine ⟨?_, ?_, ?_, ?_, ?_, ?_⟩
  · constructor
    · intro h
      by_contra hsz
      obtain ⟨a, rest, hitems⟩ := hstack_ne hsz
      simp [LinkedStack.pop, hsz, hitems] at h
    · intro hsz
      simp [LinkedStack.pop, hsz]
  · constructor
    · intro h
      by_contra hsz
      obtain ⟨a, rest, hitems⟩ := hstack_ne hsz
      simp [LinkedStack.peek, hsz, hitems] at h
    · intro hsz
      simp [LinkedStack.peek, hsz]
  · intro e he
    by_cases hsz : s.size = 0
    · simp [LinkedStack.pop, hsz]
    · obtain ⟨a, rest, hitems⟩ := hstack_ne hsz
      simp [LinkedStack.pop, hsz, hitems] at he
  · constructor
    · intro h
      by_contra hqz
      obtain ⟨x, rest, hxs⟩ := hqxs hqz
      subst hxs
      have := (qrepr_pop q x rest hq).1
      rw [this] at h
      exact absurd h (by simp)
    · intro hqz
      simp [LinkedQueue.pop, hqz]
  · constructor
    · intro h
      by_contra hqz
      obtain ⟨x, rest, hxs⟩ := hqxs hqz
      subst hxs
      obtain ⟨as, hch, _, hmap, _, _⟩ := hq
      cases as with
      | nil => simp at hmap
      | cons a0 r2 =>
        have hfront : q.front = some a0 := chain_cons_inv hch
        simp [LinkedQueue.peek, hqz, hfront] at h
    · intro hqz
      simp [LinkedQueue.peek, hqz]
  · intro e he
    by_cases hqz : q.size = 0
    · simp [LinkedQueue.pop, hqz]
    · cases hf : q.front with
      | none => simp [LinkedQueue.pop, hqz, hf]
      | some f => simp [LinkedQueue.pop, hqz, hf] at he

/-- Witness for C8 at a freshly constructed stack and queue. -/
theorem empty_error_spec_witness :
    (LinkedStack.empty.pop.1 = Except.error PyErr.emptyCollection ↔
      LinkedStack.empty.size = 0) ∧
    (LinkedQueue.empty.pop.1 = Except.error PyErr.emptyCollection ↔
      LinkedQueue.empty.size = 0) := by
  have h := empty_error_spec LinkedStack.empty LinkedQueue.empty rfl
    ⟨[], qrepr_empty⟩
  exact ⟨h.1, h.2.2.2.1⟩

/-! ### AbstractCollection equality (C9, C10)

`AbstractCollection.__eq__` compares concrete type, then `len`, then
items pairwise in iteration order.  The two concrete collection kinds
of the file that extend `AbstractCollection` are `LinkedStack` and
`LinkedQueue`. -/

theorem addrChain_of_chain {h : List QNode} :
    ∀ {o : Option Nat} {as : List Nat}, Chain h o as →
    ∀ fuel, as.length ≤ fuel → LinkedQueue.addrChain h fuel o = as := by
  intro o as hch
  induction hch with
  | nil =>
    intro fuel _
    cases fuel with
    | zero => rfl
    | succ f => rfl
  | cons halen hnext ih =>
    intro fuel hfuel
    cases fuel with
    | zero => simp at hfuel
    | succ f =>
      simp only [LinkedQueue.addrChain]
      rw [ih f (by simpa using hfuel)]

/-- On a well-formed queue, iteration visits exactly the represented
item sequence (the fuel `heap.length` is enough because chain
addresses are distinct and in range). -/
theorem qrepr_iterList (q : LinkedQueue) (xs : List Int)
    (hq : QRepr q xs) : q.iterList = xs := by
  obtain ⟨as, hch, hnd, hmap, hsz, hrear⟩ := hq
  have hlen : as.length ≤ q.heap.length :=
    nodup_bounded_length hnd (chain_mem_lt hch)
  unfold LinkedQueue.iterList
  rw [addrChain_of_chain hch q.heap.length hlen, hmap]

theorem qrepr_size (q : LinkedQueue) (xs : List Int)
    (hq : QRepr q xs) : q.size = xs.length := by
  obtain ⟨as, _, _, hmap, hsz, _⟩ := hq
  rw [hsz, hmap, List.length_map]

/-- The concrete kind of a collection (Python `type(self)`). -/
inductive CollKind where
  | stack
  | queue
deriving DecidableEq

/-- A collection built on `AbstractCollection`. -/
inductive Coll where
  | stack : LinkedStack → Coll
  | queue : LinkedQueue → Coll

namespace Coll

def kind : Coll → CollKind
  | .stack _ => CollKind.stack
  | .queue _ => CollKind.queue

/-- `len(self)`, i.e. the `_size` counter. -/
def csize : Coll → Nat
  | .stack s => s.size
  | .queue q => q.size

/-- The iteration-order item sequence of the collection. -/
def items : Coll → List Int
  | .stack s => s.iterList
  | .queue q => q.iterList

/-- Well-formedness of the underlying state. -/
def WFC : Coll → Prop
  | .stack s => s.WF
  | .queue q => ∃ xs, QRepr q xs

end Coll

/-- The pairwise comparison loop of `__eq__`: `for item in self:
if item != next(otherIter): return False`, then `return True`.  (The
`StopIteration` that `next` would raise on a shorter other iterator
cannot occur after the preceding size check on well-formed
collections.) -/
def pairItemsEq : List Int → List Int → Bool
  | [], _ => true
  | _ :: _, [] => false
  | a :: as, b :: bs => a == b && pairItemsEq as bs

/-- `AbstractCollection.__eq__`: different concrete types or different
sizes are unequal, otherwise items are compared pairwise in iteration
order.  (The `self is other` shortcut of the source is subsumed by the
structural comparison in a value model.) -/
def collEq (x y : Coll) : Bool :=
  if x.kind = y.kind then
    if x.csize = y.csize then pairItemsEq x.items y.items else false
  else false

theorem pairItemsEq_iff : ∀ (as bs : List Int), as.length = bs.length →
    (pairItemsEq as bs = true ↔ as = bs) := by
  intro as
  induction as with
  | nil =>
    intro bs h
    cases bs with
    | nil => simp [pairItemsEq]
    | cons b bs2 => simp at h
  | cons a as2 ih =>
    intro bs h
    cases bs with
    | nil => simp at h
    | cons b bs2 =>
      simp only [pairItemsEq, Bool.and_eq_true, beq_iff_eq]
      rw [ih bs2 (by simpa using h)]
      constructor
      · rintro ⟨h1, h2⟩
        rw [h1, h2]
      · intro he
        injection he with h1 h2
        exact ⟨h1, by rw [h2]⟩

theorem pairItemsEq_refl : ∀ (l : List Int), pairItemsEq l l = true := by
  intro l
  induction l with
  | nil => rfl
  | cons a rest ih => simp [pairItemsEq, ih]

theorem WFC_items_length (x : Coll) (hx : x.WFC) :
    x.items.length = x.csize := by
  cases x with
  | stack s =>
    show s.iterList.length = s.size
    unfold LinkedStack.iterList
    rw [List.length_reverse]
    exact hx.symm
  | queue q =>
    obtain ⟨xs, hq⟩ := hx
    show q.iterList.length = q.size
    rw [qrepr_iterList q xs hq, qrepr_size q xs hq]

/-- Claim C9 — two collections compare equal iff they have the same concrete
kind, the same size, and pairwise-equal items in iteration order; in
particular a collection never equals one of a different kind or size,
and two collections built by the same sequence of `add` calls are
equal. -/
theorem collection_eq_spec (x y : Coll) (hx : x.WFC) (hy : y.WFC) :
    (collEq x y = true ↔
      (x.kind = y.kind ∧ x.csize = y.csize ∧ x.items = y.items)) ∧
    (x.kind ≠ y.kind → collEq x y = false) ∧
    (x.csize ≠ y.csize → collEq x y = false) ∧
    (∀ vs, x = Coll.stack (buildStack vs) → y = Coll.stack (buildStack vs) →
      collEq x y = true) ∧
    (∀ vs, x = Coll.queue (buildQueue vs) → y = Coll.queue (buildQueue vs) →
      collEq x y = true) := by
  have hxlen := WFC_items_length x hx
  have hylen := WFC_items_length y hy
  have hmain : collEq x y = true ↔
      (x.kind = y.kind ∧ x.csize = y.csize ∧ x.items = y.items) := by
    unfold collEq
    by_cases hk : x.kind = y.kind
    · rw [if_pos hk]
      by_cases hsz : x.csize = y.csize
      · rw [if_pos hsz]
        rw [pairItemsEq_iff _ _ (by rw [hxlen, hylen, hsz])]
        constructor
        · intro hitems
          exact ⟨hk, hsz, hitems⟩
        · rintro ⟨_, _, hi⟩
          exact hi
      · rw [if_neg hsz]
        constructor
        · intro hh
          exact absurd hh (by simp)
        · rintro ⟨_, hs2, _⟩
          exact absurd hs2 hsz
    · rw [if_neg hk]
      constructor
      · intro hh
        exact absurd hh (by simp)
      · rintro ⟨hk2, _, _⟩
        exact absurd hk2 hk
  refine ⟨hmain, ?_, ?_, ?_, ?_⟩
  · intro hk
    unfold collEq
    rw [if_neg hk]
  · intro hsz
    unfold collEq
    by_cases hk : x.kind = y.kind
    · rw [if_pos hk, if_neg hsz]
    · rw [if_neg hk]
  · intro vs hxe hye
    subst hxe
    subst hye
    exact hmain.mpr ⟨rfl, rfl, rfl⟩
  · intro vs hxe hye
    subst hxe
    subst hye
    exact hmain.mpr ⟨rfl, rfl, rfl⟩

/-- Witness for C9: two stacks built by the same `add` sequence are
equal; a stack is not equal to a queue with the same items. -/
theorem collection_eq_spec_witness :
    collEq (Coll.stack (buildStack [1, 2])) (Coll.stack (buildStack [1, 2]))
        = true ∧
    collEq (Coll.stack (buildStack [1, 2])) (Coll.queue (buildQueue [1, 2]))
        = false := by
  have hwq : (Coll.queue (buildQueue [1, 2])).WFC :=
    ⟨[1, 2], qrepr_buildQueue [1, 2]⟩
  have hws : (Coll.stack (buildStack [1, 2])).WFC :=
    (by decide : (buildStack [1, 2]).size = (buildStack [1, 2]).items.length)
  constructor
  · exact (collection_eq_spec _ _ hws hws).2.2.2.1 [1, 2] rfl rfl
  · exact (collection_eq_spec _ _ hws hwq).2.1 (by decide)

/-- Claim C10 — copy construction round-trips: `LinkedStack(s)` iterates `s`
bottom-to-top and pushes each item, reproducing the same chain, so the
copy compares equal to `s` under `__eq__`. -/
theorem stack_copy_eq (s : LinkedStack) (h : s.WF) :
    collEq (Coll.stack s.copy) (Coll.stack s) = true := by
  have hlen : s.size = s.items.length := h
  have hcopy : s.copy.items = s.items ∧ s.copy.size = s.size := by
    unfold LinkedStack.copy
    by_cases hsz : s.size = 0
    · rw [if_pos hsz]
      have hnil : s.items = [] := by
        refine List.length_eq_zero.mp ?_
        rw [← hlen]
        exact hsz
      constructor
      · rw [hnil]
        rfl
      · rw [hsz]
        rfl
    · rw [if_neg hsz]
      have hf := foldl_push_spec s.iterList LinkedStack.empty
      constructor
      · rw [hf.1]
        simp [LinkedStack.iterList, LinkedStack.empty]
      · rw [hf.2]
        simp [LinkedStack.iterList, LinkedStack.empty]
        exact hlen.symm
  obtain ⟨hci, hcs⟩ := hcopy
  unfold collEq
  simp only [Coll.kind, Coll.csize, Coll.items, if_true]
  rw [if_pos hcs]
  show pairItemsEq s.copy.iterList s.iterList = true
  unfold LinkedStack.iterList
  rw [hci]
  exact pairItemsEq_refl _

/-- Witness for C10 at the stack built by pushing 1, 2, 3. -/
theorem stack_copy_eq_witness :
    collEq (Coll.stack (buildStack [1, 2, 3]).copy)
      (Coll.stack (buildStack [1, 2, 3])) = true :=
  stack_copy_eq (buildStack [1, 2, 3]) rfl

end QSA
